import Mathlib

/-!
Shallow embedding of `snakeplane/plugin_factory.py`: the lifecycle wrapper
functions that the `PluginFactory` installs around user-supplied hooks
(`wrap_pi_init`, `wrap_push_all_records`, `wrap_pi_close`, `wrap_ii_init`,
`wrap_ii_push_record`, `wrap_ii_close`), the mode strategies wired by
`process_data` (`batch_ii_close`, the batch accumulate lambda,
`stream_ii_push_record`), and the `build_metadata` closure.

State is passed explicitly.  Calls made to external collaborators (the user
metadata hook, the user transformation, anchor metadata pushes, output
flushing, logging) are recorded as an event list, so that theorems can speak
about how often and in which order those collaborators are invoked.  The
user-supplied hooks themselves are external to the repository: where their
return value steers control flow it is passed in as data, and where a wrapper
merely delegates to them the wrapper is parametrised by the hook function.
Helper-class members (`all_inputs_completed`, `all_required_inputs_initialized`,
`accumulate_record`, `clear_accumulated_records`, `close_all_outputs`,
`push_all_output_records`) live outside this file's source and are modelled
from the specification, as marked on each definition.
-/

namespace Snakeplane

/-- Records are opaque payloads; an abstract countable carrier suffices. -/
abbrev Rec := Nat

/-- A parsed configuration: an ordered key-to-value tree, modelled flatly. -/
abbrev Config := List (String × String)

/-- Exceptions that may escape an entry point (Python exceptions). -/
inductive PyErr
  | assertionError (msg : String)
  | parseError (msg : String)
deriving DecidableEq, Repr

/-- Observable calls to external collaborators, in invocation order. -/
inductive Event
  | saveAnchors
  | userInitHook (ret : Bool)
  | logError (msg : String)
  | metadataHook
  | pushMeta (anchor : String)
  | userTransform (buffers : List (String × List Rec))
  | flushOutputs
  | userCloseCallback
  | userIICloseHook
  | closeAllOutputs
deriving DecidableEq, Repr

/-- Per-connection interface state (`AyxPluginInterface` fields used by the
wrappers: `initialized`, `completed`, `record_info_in`, and the accumulation
buffer). -/
structure Iface where
  initialized : Bool := false
  completed : Bool := false
  record_info_in : Option Nat := none
  buffer : List Rec := []
deriving DecidableEq, Repr

/-- Node-level plugin state (`AyxPlugin` fields used by the wrappers). -/
structure Plugin where
  initialized : Bool := false
  update_only_mode : Bool := false
  required_input_names : List String := []
  workflow_config : Option Config := none
  output_anchors : List String := []
  interfaces : List (String × Iface) := []
deriving DecidableEq, Repr

/-- Look up a registered interface by name (first match, dictionary read). -/
def getIface (p : Plugin) (n : String) : Option Iface :=
  (p.interfaces.find? (fun q => q.1 = n)).map Prod.snd

/-- Update the interface registered under a name.  The registry is a
dictionary keyed by name, so every entry carrying the name is rewritten. -/
def setIface (p : Plugin) (n : String) (f : Iface → Iface) : Plugin :=
  { p with interfaces :=
      p.interfaces.map (fun q => if q.1 = n then (q.1, f q.2) else q) }

/-- The names under which interfaces are registered. -/
def ifaceNames (p : Plugin) : List String :=
  p.interfaces.map Prod.fst

/-- Modelled from the spec: `all_inputs_completed` (a helper-class property
absent from the provided sources) holds iff every currently-registered
interface has `completed = true`. -/
def all_inputs_completed (p : Plugin) : Bool :=
  p.interfaces.all (fun q => q.2.completed)

/-- Modelled from the spec: `all_required_inputs_initialized` (helper-class
property absent from the provided sources) holds iff every required interface
has negotiated metadata, i.e. is registered and marked initialized. -/
def all_required_inputs_initialized (p : Plugin) : Bool :=
  p.required_input_names.all
    (fun n => ((getIface p n).map Iface.initialized).getD false)

/-- Modelled from the spec: `clear_accumulated_records` (helper-class method
absent from the provided sources) clears the accumulation buffers across all
interfaces of the node. -/
def clear_accumulated_records (p : Plugin) : Plugin :=
  { p with interfaces :=
      p.interfaces.map (fun q => (q.1, { q.2 with buffer := [] })) }

/-- Modelled from the spec: `accumulate_record` (helper-class method absent
from the provided sources) appends the incoming record to the given
interface's accumulation buffer. -/
def accumulate_record (p : Plugin) (n : String) (r : Rec) : Plugin :=
  setIface p n (fun f => { f with buffer := f.buffer ++ [r] })

/-- The node-wide buffer contents, interface by interface: what the user
transformation sees through the input manager. -/
def buffersOf (p : Plugin) : List (String × List Rec) :=
  p.interfaces.map (fun q => (q.1, q.2.buffer))

/-- `wrap_pi_init` (plugin_factory.py lines 105-122).  The raw configuration
payload is identified with its parse outcome at the external parser boundary;
there is no handler in the wrapper, so a parse error propagates.  The user
init hook is a parameter; its boolean result is stored into `initialized`. -/
def wrap_pi_init (userInit : Plugin → Bool) (p : Plugin)
    (raw : Except PyErr Config) : Plugin × List Event × Except PyErr Bool :=
  match raw with
  | .error e => (p, [.saveAnchors], .error e)
  | .ok cfg =>
      let p1 := { p with workflow_config := some cfg }
      let val := userInit p1
      ({ p1 with initialized := val }, [.saveAnchors, .userInitHook val], .ok val)

/-- `wrap_pi_add_incoming_connection` (lines 141-155): constructs a fresh
interface and registers it under the connection name (dictionary write). -/
def wrap_pi_add_incoming_connection (p : Plugin) (n : String) : Plugin :=
  if p.interfaces.any (fun q => q.1 = n) then setIface p n (fun _ => {})
  else { p with interfaces := p.interfaces ++ [(n, {})] }

/-- `wrap_push_all_records` (lines 180-195).  The user generation callback is
a parameter returning updated state, its emitted events and its own boolean,
which the wrapper discards.  The error branch logs, then raises. -/
def wrap_push_all_records (func : Plugin → Nat → Plugin × List Event × Bool)
    (p : Plugin) (lim : Nat) : Plugin × List Event × Except PyErr Bool :=
  if p.update_only_mode then (p, [], .ok true)
  else if p.required_input_names.isEmpty then
    let r := func p lim
    (r.1, r.2.1, .ok true)
  else
    (p, [.logError "Missing Incoming Connection(s)"],
      .error (.assertionError "Missing Incoming Connection(s)"))

/-- `wrap_pi_close` (lines 240-246): when `all_inputs_completed`, invoke the
user close callback and close all output anchors (`close_all_outputs` is a
helper-class method, modelled from the spec as the output-closing event). -/
def wrap_pi_close (p : Plugin) (_hasErrors : Bool) : Plugin × List Event :=
  if all_inputs_completed p then (p, [.userCloseCallback, .closeAllOutputs])
  else (p, [])

/-- `wrap_ii_init` (lines 265-295).  The interface records its schema and is
marked initialized before the user hook runs; the hook's boolean result is
passed in as data.  On hook failure both the interface's and the node's
`initialized` are cleared.  On success, in update-only mode with all required
inputs initialized, the user metadata hook fires and metadata is pushed to
every output anchor. -/
def wrap_ii_init (p : Plugin) (n : String) (schema : Nat) (hookRet : Bool) :
    Plugin × List Event × Bool :=
  let p1 := setIface p n
    (fun f => { f with record_info_in := some schema, initialized := true })
  if !hookRet then
    (setIface { p1 with initialized := false } n
      (fun f => { f with initialized := false }), [], false)
  else if p1.update_only_mode && all_required_inputs_initialized p1 then
    (p1, .metadataHook :: p1.output_anchors.map Event.pushMeta, true)
  else
    (p1, [], true)

/-- `wrap_ii_push_record` (lines 315-325): returns failure without touching
the mode strategy when the node is uninitialized or in update-only mode;
otherwise delegates to the registered strategy and returns success. -/
def wrap_ii_push_record (strategy : Plugin → String → Rec → Plugin × List Event)
    (p : Plugin) (n : String) (r : Rec) : Plugin × List Event × Bool :=
  if !p.initialized || p.update_only_mode then (p, [], false)
  else
    let s := strategy p n r
    (s.1, s.2, true)

/-- `wrap_ii_close` (lines 372-383): a no-op in update-only mode; otherwise
marks the interface completed and invokes the registered close hook with the
owning node. -/
def wrap_ii_close (inner : Plugin → Plugin × List Event)
    (p : Plugin) (n : String) : Plugin × List Event :=
  if p.update_only_mode then (p, [])
  else
    inner (setIface p n (fun f => { f with completed := true }))

/-- The `build_metadata` closure wired by `process_data` (lines 568-576): it
invokes the user metadata hook whenever the node is not in update-only mode,
with no further guard. -/
def buildMetadataClosure (p : Plugin) : List Event :=
  if !p.update_only_mode then [.metadataHook] else []

/-- `batch_ii_close` (lines 578-598): nothing when uninitialized; when all
inputs completed, negotiate metadata, run the user transformation on the full
node-wide buffers, push metadata to every output anchor, flush output. -/
def batch_ii_close (p : Plugin) : Plugin × List Event :=
  if !p.initialized then (p, [])
  else if all_inputs_completed p then
    (p, buildMetadataClosure p ++ [.userTransform (buffersOf p)]
        ++ p.output_anchors.map Event.pushMeta ++ [.flushOutputs])
  else (p, [])

/-- The batch-mode push strategy (lines 643-647): only accumulate the record
into the firing interface's buffer. -/
def batch_push_strategy (p : Plugin) (n : String) (r : Rec) :
    Plugin × List Event :=
  (accumulate_record p n r, [])

/-- `stream_ii_push_record` (lines 601-624): clear every interface's buffer,
accumulate only the incoming record, negotiate metadata, run the user
transformation, push metadata to every output anchor, flush output. -/
def stream_ii_push_record (p : Plugin) (n : String) (r : Rec) :
    Plugin × List Event :=
  if !p.initialized then (p, [])
  else
    let p1 := accumulate_record (clear_accumulated_records p) n r
    (p1, buildMetadataClosure p1 ++ [.userTransform (buffersOf p1)]
        ++ p1.output_anchors.map Event.pushMeta ++ [.flushOutputs])

/-- The record-flow strategy selected by `process_data` (mode strings other
than batch, stream or source are rejected at construction time; source mode
rewires `pi_push_all_records` and registers no interface handlers, so the
interface-level strategies below concern batch and stream). -/
inductive Mode
  | batch
  | stream
deriving DecidableEq, Repr

/-- The inner function installed for `ii_push_record` in each mode. -/
def push_strategy : Mode → Plugin → String → Rec → Plugin × List Event
  | .batch => batch_push_strategy
  | .stream => stream_ii_push_record

/-- The inner function installed for `ii_close` in each mode: batch mode
replaces it by `batch_ii_close`; stream mode keeps the default user hook
registered at factory construction, whose invocation is observable. -/
def close_inner : Mode → Plugin → Plugin × List Event
  | .batch => batch_ii_close
  | .stream => fun p => (p, [.userIICloseHook])

instance {α β : Type} [DecidableEq α] [DecidableEq β] :
    DecidableEq (Except α β) := fun a b =>
  match a, b with
  | .error x, .error y =>
      if h : x = y then .isTrue (by rw [h]) else .isFalse (by simp [h])
  | .error _, .ok _ => .isFalse (by simp)
  | .ok _, .error _ => .isFalse (by simp)
  | .ok x, .ok y =>
      if h : x = y then .isTrue (by rw [h]) else .isFalse (by simp [h])

/-- One host-engine entry-point invocation.  Booleans carried by a call are
the results returned by the corresponding external user hook. -/
inductive Call
  | piInit (raw : Except PyErr Config) (userRet : Bool)
  | addIncoming (n : String)
  | iiInit (n : String) (schema : Nat) (hookRet : Bool)
  | push (n : String) (r : Rec)
  | close (n : String)
  | pushAll (lim : Nat)
  | piClose (hasErrors : Bool)
deriving DecidableEq, Repr

/-- Dispatch one engine call to the corresponding wrapper.  In batch and
stream mode `pi_push_all_records` keeps the default no-op user function
registered at factory construction. -/
def step (m : Mode) (p : Plugin) : Call → Plugin × List Event
  | .piInit raw ret =>
      let r := wrap_pi_init (fun _ => ret) p raw
      (r.1, r.2.1)
  | .addIncoming n => (wrap_pi_add_incoming_connection p n, [])
  | .iiInit n sc h =>
      let r := wrap_ii_init p n sc h
      (r.1, r.2.1)
  | .push n rc =>
      let r := wrap_ii_push_record (push_strategy m) p n rc
      (r.1, r.2.1)
  | .close n => wrap_ii_close (close_inner m) p n
  | .pushAll lim =>
      let r := wrap_push_all_records (fun q _ => (q, [], true)) p lim
      (r.1, r.2.1)
  | .piClose e => wrap_pi_close p e

/-- Run a sequence of engine calls, accumulating the emitted events. -/
def run (m : Mode) (p : Plugin) : List Call → Plugin × List Event
  | [] => (p, [])
  | c :: cs =>
      let r := step m p c
      let r2 := run m r.1 cs
      (r2.1, r.2 ++ r2.2)

/-- Is this event an invocation of the user transformation? -/
def isTransform : Event → Bool
  | .userTransform _ => true
  | _ => false

/-- How many times the user transformation was invoked. -/
def countTransform (evs : List Event) : Nat :=
  (evs.filter isTransform).length

/-- How many times the user metadata-building hook was invoked. -/
def countMetadataHook (evs : List Event) : Nat :=
  evs.count .metadataHook

/-- The records pushed to a given interface by a call sequence, in order. -/
def pushesTo (cs : List Call) (n : String) : List Rec :=
  cs.filterMap (fun c => match c with
    | .push m r => if m = n then some r else none
    | _ => none)

/-- The interface names initialized by a call sequence. -/
def iiInitNames (cs : List Call) : List String :=
  cs.filterMap (fun c => match c with
    | .iiInit n _ _ => some n
    | _ => none)

/-- A record-flow call: a per-interface push or close. -/
def isFlow : Call → Bool
  | .push _ _ => true
  | .close _ => true
  | _ => false

@[simp]
theorem setIface_update_only (p : Plugin) (n : String) (f : Iface → Iface) :
    (setIface p n f).update_only_mode = p.update_only_mode := rfl

@[simp]
theorem setIface_initialized (p : Plugin) (n : String) (f : Iface → Iface) :
    (setIface p n f).initialized = p.initialized := rfl

@[simp]
theorem setIface_output_anchors (p : Plugin) (n : String) (f : Iface → Iface) :
    (setIface p n f).output_anchors = p.output_anchors := rfl

@[simp]
theorem setIface_required (p : Plugin) (n : String) (f : Iface → Iface) :
    (setIface p n f).required_input_names = p.required_input_names := rfl

@[simp]
theorem clear_update_only (p : Plugin) :
    (clear_accumulated_records p).update_only_mode = p.update_only_mode := rfl

@[simp]
theorem clear_initialized (p : Plugin) :
    (clear_accumulated_records p).initialized = p.initialized := rfl

@[simp]
theorem clear_output_anchors (p : Plugin) :
    (clear_accumulated_records p).output_anchors = p.output_anchors := rfl

@[simp]
theorem accumulate_update_only (p : Plugin) (n : String) (r : Rec) :
    (accumulate_record p n r).update_only_mode = p.update_only_mode := rfl

@[simp]
theorem accumulate_initialized (p : Plugin) (n : String) (r : Rec) :
    (accumulate_record p n r).initialized = p.initialized := rfl

@[simp]
theorem accumulate_output_anchors (p : Plugin) (n : String) (r : Rec) :
    (accumulate_record p n r).output_anchors = p.output_anchors := rfl

theorem countMetadataHook_append (a b : List Event) :
    countMetadataHook (a ++ b) = countMetadataHook a + countMetadataHook b :=
  List.count_append ..

theorem countMetadataHook_pushMeta_map (l : List String) :
    countMetadataHook (l.map Event.pushMeta) = 0 := by
  simp [countMetadataHook, List.count_eq_zero, List.mem_map]

theorem countTransform_append (a b : List Event) :
    countTransform (a ++ b) = countTransform a + countTransform b := by
  simp [countTransform, List.filter_append]

theorem countTransform_pushMeta_map (l : List String) :
    countTransform (l.map Event.pushMeta) = 0 := by
  simp [countTransform, List.filter_eq_nil_iff]
  intro e _
  simp [isTransform]

/-- Claim C1, as frozen, is false: on a node in update-only mode whose
required-input set is non-empty, `pi_push_all_records` returns success
immediately — it neither logs the topology error nor raises the fatal
assertion, contradicting "on every invocation, regardless of any other node
state such as updateOnlyMode". -/
theorem c1_push_all_counterexample :
    wrap_push_all_records (fun q _ => (q, [], true))
        { update_only_mode := true, required_input_names := ["#1"] } 0
      = ({ update_only_mode := true, required_input_names := ["#1"] }, [],
          .ok true) := by
  rfl

/-- Claim C1 (amended): whenever the node is NOT in update-only mode and the
required-input set is non-empty, `pi_push_all_records` logs the topology
error at error severity and raises the fatal assertion, never returning
success; in update-only mode the call instead returns success immediately. -/
theorem c1_push_all_fatal
    (func : Plugin → Nat → Plugin × List Event × Bool) (p : Plugin) (lim : Nat)
    (hdry : p.update_only_mode = false)
    (hreq : p.required_input_names ≠ []) :
    wrap_push_all_records func p lim
      = (p, [.logError "Missing Incoming Connection(s)"],
          .error (.assertionError "Missing Incoming Connection(s)")) := by
  have hne : p.required_input_names.isEmpty = false := by
    cases h : p.required_input_names with
    | nil => exact absurd h hreq
    | cons a l => rfl
  simp [wrap_push_all_records, hdry, hne]

/-- Witness for `c1_push_all_fatal` on a concrete node. -/
theorem c1_push_all_fatal_witness :
    wrap_push_all_records (fun q _ => (q, [], true))
        { required_input_names := ["#1"] } 0
      = ({ required_input_names := ["#1"] },
          [.logError "Missing Incoming Connection(s)"],
          .error (.assertionError "Missing Incoming Connection(s)")) :=
  c1_push_all_fatal _ _ 0 rfl (by decide)

/-- Claim C3, as frozen, is false: on a payload whose parse fails, `pi_init`
propagates the parse exception past the init boundary; the emitted event
list is exactly the anchor-reference save — nothing is reported through the
logging collaborator and no failure value is returned. -/
theorem c3_init_parse_counterexample :
    wrap_pi_init (fun _ => true) {} (.error (.parseError "bad payload"))
      = ({}, [.saveAnchors], .error (.parseError "bad payload")) := by
  rfl

/-- Claim C3 (amended): for every raw configuration payload whose parse
fails, `pi_init` raises the parse exception uncaught past the init boundary;
the node state is left unchanged (a fresh node thus stays uninitialized),
the user init callback does not run, and nothing is logged at this layer. -/
theorem c3_init_parse_raises (userInit : Plugin → Bool) (p : Plugin)
    (e : PyErr) :
    wrap_pi_init userInit p (.error e) = (p, [.saveAnchors], .error e) := by
  rfl

/-- Claim C8: `ii_push_record` returns failure with no mode-strategy work
and no state change exactly when the node is uninitialized or in update-only
mode; otherwise it delegates to the mode-specific strategy and returns
success. -/
theorem c8_push_record_gate
    (strategy : Plugin → String → Rec → Plugin × List Event)
    (p : Plugin) (n : String) (r : Rec) :
    ((wrap_ii_push_record strategy p n r).2.2 = false
        ↔ (p.initialized = false ∨ p.update_only_mode = true)) ∧
    ((p.initialized = false ∨ p.update_only_mode = true) →
        wrap_ii_push_record strategy p n r = (p, [], false)) ∧
    (p.initialized = true → p.update_only_mode = false →
        wrap_ii_push_record strategy p n r
          = ((strategy p n r).1, (strategy p n r).2, true)) := by
  cases hi : p.initialized <;> cases hu : p.update_only_mode <;>
    simp [wrap_ii_push_record, hi, hu]

/-- Witness for `c8_push_record_gate`: an initialized, non-dry-run node
delegates a batch-mode push to the accumulate strategy and returns success. -/
theorem c8_push_record_gate_witness :
    wrap_ii_push_record batch_push_strategy
        { initialized := true, interfaces := [("A", {})] } "A" 5
      = ((batch_push_strategy
            { initialized := true, interfaces := [("A", {})] } "A" 5).1,
         (batch_push_strategy
            { initialized := true, interfaces := [("A", {})] } "A" 5).2,
         true) :=
  (c8_push_record_gate batch_push_strategy
    { initialized := true, interfaces := [("A", {})] } "A" 5).2.2 rfl rfl

/-- Claim C9: with update-only mode off and no required inputs,
`pi_push_all_records` invokes the user generation callback and returns
success unconditionally — the callback's own boolean is discarded and cannot
make the entry point report failure. -/
theorem c9_push_all_discards_result
    (func : Plugin → Nat → Plugin × List Event × Bool) (p : Plugin) (lim : Nat)
    (hdry : p.update_only_mode = false)
    (hreq : p.required_input_names = []) :
    wrap_push_all_records func p lim
      = ((func p lim).1, (func p lim).2.1, .ok true) := by
  simp [wrap_push_all_records, hdry, hreq]

/-- Witness for `c9_push_all_discards_result`: a generation callback that
reports `false` still yields a successful `pi_push_all_records`. -/
theorem c9_push_all_discards_result_witness :
    wrap_push_all_records (fun q _ => (q, [], false)) {} 0
      = ({}, [], .ok true) :=
  c9_push_all_discards_result (fun q _ => (q, [], false)) {} 0 rfl rfl

/-- Claim C2, as frozen, is false: in normal (non-dry-run) execution the
user metadata-building hook is NOT invoked at most once per run — a stream
run on an initialized node with two incoming records invokes it twice,
because the negotiation closure carries no idempotence guard. -/
theorem c2_metadata_counterexample :
    ({ initialized := true, interfaces := [("A", {})],
        output_anchors := ["Output"] } : Plugin).update_only_mode = false ∧
    countMetadataHook
      (run .stream
        { initialized := true, interfaces := [("A", {})],
          output_anchors := ["Output"] }
        [.push "A" 1, .push "A" 2]).2 = 2 := by
  exact ⟨rfl, by rfl⟩

/-- Claim C2 (amended): the negotiation closure wired by `process_data` is a
no-op exactly when `updateOnlyMode` is true; in normal execution it invokes
the user metadata-building hook on every call, so each stream-mode
`pushRecord` on an initialized, non-dry-run node fires the hook exactly once
— the hook therefore fires once per incoming record, not at most once per
run. -/
theorem c2_metadata_no_guard (p : Plugin) (n : String) (r : Rec)
    (hinit : p.initialized = true) (hdry : p.update_only_mode = false) :
    (∀ q : Plugin, buildMetadataClosure q = [] ↔ q.update_only_mode = true) ∧
    countMetadataHook
      (wrap_ii_push_record stream_ii_push_record p n r).2.1 = 1 := by
  constructor
  · intro q
    cases h : q.update_only_mode <;> simp [buildMetadataClosure, h]
  · simp [wrap_ii_push_record, hinit, hdry, stream_ii_push_record,
      buildMetadataClosure, countMetadataHook_append,
      countMetadataHook_pushMeta_map, countMetadataHook]
    simp [List.count_eq_zero, List.mem_map]

/-- Witness for `c2_metadata_no_guard` on a concrete node and record. -/
theorem c2_metadata_no_guard_witness :
    countMetadataHook
      (wrap_ii_push_record stream_ii_push_record
        { initialized := true, interfaces := [("A", {})],
          output_anchors := ["Output"] } "A" 7).2.1 = 1 :=
  (c2_metadata_no_guard
    { initialized := true, interfaces := [("A", {})],
      output_anchors := ["Output"] } "A" 7 rfl rfl).2

theorem buffersOf_clear_accumulate (p : Plugin) (n : String) (r : Rec) :
    buffersOf (accumulate_record (clear_accumulated_records p) n r)
      = p.interfaces.map (fun q => (q.1, if q.1 = n then [r] else [])) := by
  unfold buffersOf accumulate_record setIface clear_accumulated_records
  simp only [List.map_map]
  apply List.map_congr_left
  intro a _
  by_cases h : a.1 = n <;> simp [h]

/-- Claim C5: in stream mode, a `pushRecord` on an initialized, non-dry-run
node clears all interfaces' accumulation buffers, accumulates only the
incoming record into the firing interface, and at the moment the user
transformation runs (once for this record) exactly that record is resident
in the node-wide buffers; the metadata push to every output anchor and the
output flush follow the transformation. -/
theorem c5_stream_single_slot (p : Plugin) (n : String) (r : Rec)
    (hinit : p.initialized = true) (hdry : p.update_only_mode = false)
    (hmem : n ∈ ifaceNames p) :
    wrap_ii_push_record stream_ii_push_record p n r
      = (accumulate_record (clear_accumulated_records p) n r,
          .metadataHook ::
            .userTransform
              (buffersOf (accumulate_record (clear_accumulated_records p) n r)) ::
            (p.output_anchors.map Event.pushMeta ++ [.flushOutputs]),
          true) ∧
    (∀ q ∈ buffersOf (accumulate_record (clear_accumulated_records p) n r),
        q.2 = if q.1 = n then [r] else []) ∧
    (n, [r]) ∈ buffersOf (accumulate_record (clear_accumulated_records p) n r) := by
  refine ⟨?_, ?_, ?_⟩
  · simp [wrap_ii_push_record, hinit, hdry, stream_ii_push_record,
      buildMetadataClosure]
  · intro q hq
    rw [buffersOf_clear_accumulate] at hq
    rcases List.mem_map.mp hq with ⟨a, _, rfl⟩
    rfl
  · rw [buffersOf_clear_accumulate]
    rcases List.mem_map.mp hmem with ⟨a, ha, rfl⟩
    exact List.mem_map.mpr ⟨a, ha, by simp⟩

/-- Witness for `c5_stream_single_slot`: two interfaces, a push on the
second; only the pushed record is resident when the transformation runs. -/
theorem c5_stream_single_slot_witness :
    wrap_ii_push_record stream_ii_push_record
        { initialized := true, output_anchors := ["Output"],
          interfaces := [("A", { buffer := [3] }), ("B", {})] } "B" 9
      = (accumulate_record
            (clear_accumulated_records
              { initialized := true, output_anchors := ["Output"],
                interfaces := [("A", { buffer := [3] }), ("B", {})] }) "B" 9,
          .metadataHook ::
            .userTransform
              (buffersOf (accumulate_record
                (clear_accumulated_records
                  { initialized := true, output_anchors := ["Output"],
                    interfaces := [("A", { buffer := [3] }), ("B", {})] })
                "B" 9)) ::
            ([Event.pushMeta "Output"] ++ [.flushOutputs]),
          true) ∧
    ("B", [9]) ∈ buffersOf (accumulate_record
        (clear_accumulated_records
          { initialized := true, output_anchors := ["Output"],
            interfaces := [("A", { buffer := [3] }), ("B", {})] }) "B" 9) := by
  have h := c5_stream_single_slot
    { initialized := true, output_anchors := ["Output"],
      interfaces := [("A", { buffer := [3] }), ("B", {})] } "B" 9
    rfl rfl (by decide)
  exact ⟨h.1, h.2.2⟩

theorem run_append (m : Mode) (p : Plugin) (xs ys : List Call) :
    run m p (xs ++ ys)
      = ((run m (run m p xs).1 ys).1,
         (run m p xs).2 ++ (run m (run m p xs).1 ys).2) := by
  induction xs generalizing p with
  | nil => simp [run]
  | cons c cs ih => simp [run, ih, List.append_assoc]

/-- No entry point changes the run-level configuration fields: update-only
mode, the output anchor set and the required-input names are engine-set and
survive every call. -/
theorem step_scalars (m : Mode) (p : Plugin) (c : Call) :
    (step m p c).1.update_only_mode = p.update_only_mode ∧
    (step m p c).1.output_anchors = p.output_anchors ∧
    (step m p c).1.required_input_names = p.required_input_names := by
  cases c with
  | piInit raw ret => cases raw <;> exact ⟨rfl, rfl, rfl⟩
  | addIncoming n =>
      by_cases h : p.interfaces.any (fun q => q.1 = n) <;>
        simp [step, wrap_pi_add_incoming_connection, h, setIface]
  | iiInit n sc h =>
      cases h with
      | false => exact ⟨rfl, rfl, rfl⟩
      | true =>
          simp only [step, wrap_ii_init, Bool.not_true, Bool.false_eq_true,
            if_false]
          split <;> exact ⟨rfl, rfl, rfl⟩
  | push n r =>
      cases m <;>
        simp only [step, push_strategy, wrap_ii_push_record,
          batch_push_strategy, stream_ii_push_record] <;>
        split
      · exact ⟨rfl, rfl, rfl⟩
      · exact ⟨rfl, rfl, rfl⟩
      · exact ⟨rfl, rfl, rfl⟩
      · split <;> exact ⟨rfl, rfl, rfl⟩
  | close n =>
      cases m <;>
        simp only [step, close_inner, wrap_ii_close, batch_ii_close] <;>
        split
      · exact ⟨rfl, rfl, rfl⟩
      · split
        · exact ⟨rfl, rfl, rfl⟩
        · split <;> exact ⟨rfl, rfl, rfl⟩
      · exact ⟨rfl, rfl, rfl⟩
      · exact ⟨rfl, rfl, rfl⟩
  | pushAll lim =>
      simp only [step, wrap_push_all_records]
      split
      · exact ⟨rfl, rfl, rfl⟩
      · split <;> exact ⟨rfl, rfl, rfl⟩
  | piClose e =>
      simp only [step, wrap_pi_close]
      split <;> exact ⟨rfl, rfl, rfl⟩

theorem run_scalars (m : Mode) (p : Plugin) (cs : List Call) :
    (run m p cs).1.update_only_mode = p.update_only_mode ∧
    (run m p cs).1.output_anchors = p.output_anchors ∧
    (run m p cs).1.required_input_names = p.required_input_names := by
  induction cs generalizing p with
  | nil => exact ⟨rfl, rfl, rfl⟩
  | cons c cs ih =>
      have hs := step_scalars m p c
      have hr := ih (step m p c).1
      simp only [run]
      exact ⟨hr.1.trans hs.1, hr.2.1.trans hs.2.1, hr.2.2.trans hs.2.2⟩

/-- In update-only mode no single entry point ever invokes the user
transformation. -/
theorem step_dry_no_transform (m : Mode) (p : Plugin) (c : Call)
    (hdry : p.update_only_mode = true) :
    countTransform (step m p c).2 = 0 := by
  cases c with
  | piInit raw ret =>
      cases raw <;> simp [step, wrap_pi_init, countTransform, isTransform]
  | addIncoming n => rfl
  | iiInit n sc h =>
      cases h with
      | false => rfl
      | true =>
          simp only [step, wrap_ii_init, Bool.not_true, Bool.false_eq_true,
            if_false]
          split
          · simp [countTransform, isTransform, List.filter_eq_nil_iff]
          · rfl
  | push n r => simp [step, wrap_ii_push_record, hdry, countTransform]
  | close n => simp [step, wrap_ii_close, hdry, countTransform]
  | pushAll lim => simp [step, wrap_push_all_records, hdry, countTransform]
  | piClose e =>
      simp only [step, wrap_pi_close]
      split <;> simp [countTransform, isTransform]

theorem run_dry_no_transform (m : Mode) (p : Plugin) (cs : List Call)
    (hdry : p.update_only_mode = true) :
    countTransform (run m p cs).2 = 0 := by
  induction cs generalizing p with
  | nil => rfl
  | cons c cs ih =>
      simp only [run, countTransform_append]
      rw [step_dry_no_transform m p c hdry,
        ih (step m p c).1 ((step_scalars m p c).1.trans hdry)]

theorem all_inputs_completed_false_of_uncompleted (p : Plugin)
    (h : ∃ q ∈ p.interfaces, q.2.completed = false) :
    all_inputs_completed p = false := by
  rcases h with ⟨q, hq, hqc⟩
  unfold all_inputs_completed
  rw [List.all_eq_false]
  exact ⟨q, hq, by simp [hqc]⟩

theorem exists_uncompleted_map (l : List (String × Iface))
    (g : String × Iface → String × Iface)
    (hg : ∀ x, x.2.completed = false → (g x).2.completed = false)
    (h : ∃ q ∈ l, q.2.completed = false) :
    ∃ q ∈ l.map g, q.2.completed = false := by
  rcases h with ⟨q, hq, hqc⟩
  exact ⟨g q, List.mem_map.mpr ⟨q, hq, rfl⟩, hg q hqc⟩

/-- In update-only mode every step keeps some registered interface
uncompleted, provided one was uncompleted before. -/
theorem step_dry_uncompleted (m : Mode) (p : Plugin) (c : Call)
    (hdry : p.update_only_mode = true)
    (h : ∃ q ∈ p.interfaces, q.2.completed = false) :
    ∃ q ∈ (step m p c).1.interfaces, q.2.completed = false := by
  cases c with
  | piInit raw ret =>
      cases raw <;> exact h
  | addIncoming n =>
      by_cases hn : p.interfaces.any (fun x => x.1 = n) <;>
        simp only [step, wrap_pi_add_incoming_connection, hn, if_true, if_false,
          Bool.false_eq_true, setIface]
      · exact exists_uncompleted_map _ _
          (fun x hx => by by_cases hxn : x.1 = n <;> simp [hxn, hx]) h
      · rcases h with ⟨q, hq, hqc⟩
        exact ⟨q, List.mem_append.mpr (Or.inl hq), hqc⟩
  | iiInit n sc hk =>
      cases hk with
      | false =>
          simp only [step, wrap_ii_init, Bool.not_false, if_true, setIface]
          exact exists_uncompleted_map _ _
            (fun x hx => by by_cases hxn : x.1 = n <;> simp [hxn, hx])
            (exists_uncompleted_map _ _
              (fun x hx => by by_cases hxn : x.1 = n <;> simp [hxn, hx]) h)
      | true =>
          simp only [step, wrap_ii_init, Bool.not_true, Bool.false_eq_true,
            if_false]
          split <;>
            { simp only [setIface]
              exact exists_uncompleted_map _ _
                (fun x hx => by by_cases hxn : x.1 = n <;> simp [hxn, hx]) h }
  | push n r =>
      simp only [step, wrap_ii_push_record, hdry, Bool.or_true, if_true]
      exact h
  | close n =>
      simp only [step, wrap_ii_close, hdry, if_true]
      exact h
  | pushAll lim =>
      simp only [step, wrap_push_all_records, hdry, if_true]
      exact h
  | piClose e =>
      simp only [step, wrap_pi_close]
      split <;> exact h

theorem run_dry_uncompleted (m : Mode) (p : Plugin) (cs : List Call)
    (hdry : p.update_only_mode = true)
    (h : ∃ q ∈ p.interfaces, q.2.completed = false) :
    ∃ q ∈ (run m p cs).1.interfaces, q.2.completed = false := by
  induction cs generalizing p with
  | nil => exact h
  | cons c cs ih =>
      exact ih (step m p c).1 ((step_scalars m p c).1.trans hdry)
        (step_dry_uncompleted m p c hdry h)

/-- In update-only mode with some interface uncompleted, no step emits the
user close callback or the output-closing call. -/
theorem step_dry_no_close_events (m : Mode) (p : Plugin) (c : Call)
    (hdry : p.update_only_mode = true)
    (h : ∃ q ∈ p.interfaces, q.2.completed = false) :
    Event.userCloseCallback ∉ (step m p c).2 ∧
    Event.closeAllOutputs ∉ (step m p c).2 := by
  cases c with
  | piInit raw ret => cases raw <;> simp [step, wrap_pi_init]
  | addIncoming n => simp [step]
  | iiInit n sc hk =>
      cases hk with
      | false => simp [step, wrap_ii_init]
      | true =>
          simp only [step, wrap_ii_init, Bool.not_true, Bool.false_eq_true,
            if_false]
          split <;> simp
  | push n r => simp [step, wrap_ii_push_record, hdry]
  | close n => simp [step, wrap_ii_close, hdry]
  | pushAll lim => simp [step, wrap_push_all_records, hdry]
  | piClose e =>
      simp [step, wrap_pi_close, all_inputs_completed_false_of_uncompleted p h]

/-- Claim C10: in update-only mode `ii_close` returns before marking the
interface completed or invoking the registered close hook (the state and the
event log are untouched, for every registered hook); consequently, on a node
with at least one registered, not-yet-completed interface, a dry-run never
makes `allInputsCompleted` true, and no `pi_close` anywhere in the run
invokes the user close callback or closes an output anchor. -/
theorem c10_dry_close_inert (m : Mode) (p : Plugin) (cs : List Call)
    (hdry : p.update_only_mode = true)
    (h : ∃ q ∈ p.interfaces, q.2.completed = false) :
    (∀ (inner : Plugin → Plugin × List Event) (p1 : Plugin) (n : String),
        p1.update_only_mode = true → wrap_ii_close inner p1 n = (p1, [])) ∧
    all_inputs_completed (run m p cs).1 = false ∧
    Event.userCloseCallback ∉ (run m p cs).2 ∧
    Event.closeAllOutputs ∉ (run m p cs).2 := by
  refine ⟨fun inner p1 n h1 => by simp [wrap_ii_close, h1], ?_, ?_⟩
  · exact all_inputs_completed_false_of_uncompleted _
      (run_dry_uncompleted m p cs hdry h)
  · induction cs generalizing p with
    | nil => simp [run]
    | cons c cs ih =>
        have hs := step_dry_no_close_events m p c hdry h
        have hrest := ih (step m p c).1 ((step_scalars m p c).1.trans hdry)
          (step_dry_uncompleted m p c hdry h)
        simp only [run, List.mem_append]
        constructor
        · intro hmem
          rcases hmem with hmem | hmem
          · exact hs.1 hmem
          · exact hrest.1 hmem
        · intro hmem
          rcases hmem with hmem | hmem
          · exact hs.2 hmem
          · exact hrest.2 hmem

/-- Witness for `c10_dry_close_inert`: a dry-run over one interface that is
initialized, pushed to, closed and finally node-closed leaves the node
incomplete and never closes outputs. -/
theorem c10_dry_close_inert_witness :
    all_inputs_completed
      (run .batch
        { update_only_mode := true, required_input_names := ["A"],
          output_anchors := ["Output"], interfaces := [("A", {})] }
        [.iiInit "A" 0 true, .push "A" 1, .close "A", .piClose false]).1
      = false ∧
    Event.closeAllOutputs ∉
      (run .batch
        { update_only_mode := true, required_input_names := ["A"],
          output_anchors := ["Output"], interfaces := [("A", {})] }
        [.iiInit "A" 0 true, .push "A" 1, .close "A", .piClose false]).2 := by
  have h := c10_dry_close_inert .batch
    { update_only_mode := true, required_input_names := ["A"],
      output_anchors := ["Output"], interfaces := [("A", {})] }
    [.iiInit "A" 0 true, .push "A" 1, .close "A", .piClose false]
    rfl ⟨("A", {}), by simp, rfl⟩
  exact ⟨h.2.1, h.2.2.2⟩

/-- Once the node-level initialized flag is false, every entry point other
than `pi_init` leaves it false: only `pi_init` stores a fresh user-init
result, and a failing interface init hook re-clears it. -/
theorem step_keeps_uninitialized (m : Mode) (p : Plugin) (c : Call)
    (h : p.initialized = false)
    (hc : ∀ raw ret, c ≠ .piInit raw ret) :
    (step m p c).1.initialized = false := by
  cases c with
  | piInit raw ret => exact absurd rfl (hc raw ret)
  | addIncoming n =>
      by_cases hn : p.interfaces.any (fun x => x.1 = n) <;>
        simp [step, wrap_pi_add_incoming_connection, hn, setIface, h]
  | iiInit n sc hk =>
      cases hk with
      | false => simp [step, wrap_ii_init]
      | true =>
          simp only [step, wrap_ii_init, Bool.not_true, Bool.false_eq_true,
            if_false]
          split <;> simp [h]
  | push n r => simp [step, wrap_ii_push_record, h]
  | close n =>
      by_cases hd : p.update_only_mode <;> cases m <;>
        simp [step, close_inner, wrap_ii_close, batch_ii_close, hd, h]
  | pushAll lim =>
      by_cases hd : p.update_only_mode <;>
        by_cases hr : p.required_input_names.isEmpty <;>
          simp [step, wrap_push_all_records, hd, hr, h]
  | piClose e =>
      simp only [step, wrap_pi_close]
      split <;> exact h

/-- On an uninitialized node, no single entry point invokes the user
transformation. -/
theorem step_uninit_no_transform (m : Mode) (p : Plugin) (c : Call)
    (h : p.initialized = false) :
    countTransform (step m p c).2 = 0 := by
  cases c with
  | piInit raw ret =>
      cases raw <;> simp [step, wrap_pi_init, countTransform, isTransform]
  | addIncoming n => rfl
  | iiInit n sc hk =>
      cases hk with
      | false => rfl
      | true =>
          simp only [step, wrap_ii_init, Bool.not_true, Bool.false_eq_true,
            if_false]
          split
          · simp [countTransform, isTransform, List.filter_eq_nil_iff]
          · rfl
  | push n r => simp [step, wrap_ii_push_record, h, countTransform]
  | close n =>
      by_cases hd : p.update_only_mode <;> cases m <;>
        simp [step, close_inner, wrap_ii_close, batch_ii_close, hd, h,
          countTransform, isTransform]
  | pushAll lim =>
      by_cases hd : p.update_only_mode <;>
        by_cases hr : p.required_input_names.isEmpty <;>
          simp [step, wrap_push_all_records, hd, hr, countTransform, isTransform]
  | piClose e =>
      simp only [step, wrap_pi_close]
      split <;> simp [countTransform, isTransform]

/-- On a node whose initialized flag is false, a run containing no `pi_init`
never invokes the user transformation. -/
theorem run_uninit_no_transform (m : Mode) (p : Plugin) (cs : List Call)
    (h : p.initialized = false)
    (hpi : ∀ raw ret, Call.piInit raw ret ∉ cs) :
    countTransform (run m p cs).2 = 0 := by
  induction cs generalizing p with
  | nil => rfl
  | cons c cs ih =>
      have hc : ∀ raw ret, c ≠ .piInit raw ret := fun raw ret hcc =>
        hpi raw ret (hcc ▸ List.mem_cons_self c cs)
      simp only [run, countTransform_append]
      rw [step_uninit_no_transform m p c h,
        ih (step m p c).1 (step_keeps_uninitialized m p c h hc)
          (fun raw ret hm => hpi raw ret (List.mem_cons_of_mem c hm))]

/-- Has a close call for the named interface been issued? -/
def closedIn (cs : List Call) (n : String) : Bool :=
  cs.any (fun c => c = .close n)

theorem closedIn_cons (c : Call) (cs : List Call) (n : String) :
    closedIn (c :: cs) n = (decide (c = .close n) || closedIn cs n) := by
  simp [closedIn]

theorem batch_ii_close_state (p : Plugin) : (batch_ii_close p).1 = p := by
  unfold batch_ii_close
  split
  · rfl
  · split <;> rfl

theorem close_inner_state (m : Mode) (p : Plugin) :
    (close_inner m p).1 = p := by
  cases m with
  | batch => exact batch_ii_close_state p
  | stream => rfl

/-- Outside update-only mode, one step transforms the completion projection
of the registry pointwise: a close marks its interface, nothing else changes
any completion flag (registration calls excluded). -/
theorem step_completed_map (m : Mode) (p : Plugin) (c : Call)
    (hdry : p.update_only_mode = false)
    (hc : ∀ n, c ≠ .addIncoming n) :
    (step m p c).1.interfaces.map (fun q => (q.1, q.2.completed))
      = p.interfaces.map (fun q =>
          (q.1, q.2.completed || decide (c = .close q.1))) := by
  cases c with
  | piInit raw ret => cases raw <;> simp [step, wrap_pi_init]
  | addIncoming n => exact absurd rfl (hc n)
  | iiInit n sc hk =>
      cases hk with
      | false =>
          simp only [step, wrap_ii_init, Bool.not_false, if_true, setIface,
            List.map_map]
          apply List.map_congr_left
          intro x _
          by_cases hxn : x.1 = n <;> simp [hxn]
      | true =>
          simp only [step, wrap_ii_init, Bool.not_true, Bool.false_eq_true,
            if_false]
          split <;>
            { simp only [setIface, List.map_map]
              apply List.map_congr_left
              intro x _
              by_cases hxn : x.1 = n <;> simp [hxn] }
  | push n r =>
      by_cases hg : (!p.initialized || p.update_only_mode) = true
      · simp only [step, wrap_ii_push_record, hg, if_true]
        simp
      · cases m <;>
          simp only [step, push_strategy, wrap_ii_push_record, hg,
            Bool.false_eq_true, if_false, batch_push_strategy,
            stream_ii_push_record, accumulate_record, clear_accumulated_records,
            setIface, List.map_map]
        · apply List.map_congr_left
          intro x _
          by_cases hxn : x.1 = n <;> simp [hxn]
        · have hi : p.initialized = true := by
            cases hh : p.initialized with
            | true => rfl
            | false => exact absurd (by simp [hh]) hg
          simp only [hi, Bool.not_true, Bool.false_eq_true, if_false,
            List.map_map]
          apply List.map_congr_left
          intro x _
          by_cases hxn : x.1 = n <;> simp [hxn]
  | close n =>
      simp only [step, wrap_ii_close, hdry, Bool.false_eq_true, if_false,
        close_inner_state, setIface, List.map_map]
      apply List.map_congr_left
      intro x _
      by_cases hxn : x.1 = n
      · simp [hxn]
      · simp [hxn]
        exact fun hnx => absurd hnx.symm hxn
  | pushAll lim =>
      by_cases hd : p.update_only_mode <;>
        by_cases hr : p.required_input_names.isEmpty <;>
          simp [step, wrap_push_all_records, hd, hr]
  | piClose e =>
      simp only [step, wrap_pi_close]
      split <;> simp

/-- Outside update-only mode, over a whole run without registration calls,
an interface's completion flag is its initial flag joined with whether the
run closed it. -/
theorem run_completed_map (m : Mode) (p : Plugin) (cs : List Call)
    (hdry : p.update_only_mode = false)
    (hadd : ∀ n, Call.addIncoming n ∉ cs) :
    (run m p cs).1.interfaces.map (fun q => (q.1, q.2.completed))
      = p.interfaces.map (fun q =>
          (q.1, q.2.completed || closedIn cs q.1)) := by
  induction cs generalizing p with
  | nil => simp [run, closedIn]
  | cons c cs ih =>
      have hcadd : ∀ n, c ≠ .addIncoming n := fun n hcc =>
        hadd n (hcc ▸ List.mem_cons_self c cs)
      have h1 := step_completed_map m p c hdry hcadd
      have h2 := ih (step m p c).1 ((step_scalars m p c).1.trans hdry)
        (fun n hm => hadd n (List.mem_cons_of_mem c hm))
      have h3 : (run m p (c :: cs)).1 = (run m (step m p c).1 cs).1 := by
        simp [run]
      rw [h3, h2]
      have h4 : (step m p c).1.interfaces.map
            (fun q => (q.1, q.2.completed || closedIn cs q.1))
          = ((step m p c).1.interfaces.map
              (fun q => (q.1, q.2.completed))).map
              (fun y => (y.1, y.2 || closedIn cs y.1)) := by
        simp [List.map_map]
      rw [h4, h1]
      simp only [List.map_map]
      apply List.map_congr_left
      intro x _
      simp [closedIn_cons, Bool.or_assoc]

theorem all_inputs_completed_eq_proj (p : Plugin) :
    all_inputs_completed p
      = (p.interfaces.map (fun q => (q.1, q.2.completed))).all
          (fun y => y.2) := by
  unfold all_inputs_completed
  induction p.interfaces with
  | nil => rfl
  | cons x l ih => simp [List.all_cons, ih]

/-- Claim C7: when an interface's init hook returns false, `ii_init` clears
both the interface's and the node's initialized flag and returns false; on a
node whose initialized flag is false, a run without `pi_init` never causes a
user-transformation call from any entry point (in particular from no
`pushRecord`); and provided every registered interface is still closed, the
node-level close still invokes the user close callback and the
output-closing sequence while no transformation runs. -/
theorem c7_init_failure_isolation :
    (∀ (p : Plugin) (n : String) (sc : Nat),
        (wrap_ii_init p n sc false).1.initialized = false ∧
        (wrap_ii_init p n sc false).2.2 = false ∧
        (wrap_ii_init p n sc false).2.1 = [] ∧
        ∀ q ∈ (wrap_ii_init p n sc false).1.interfaces,
          q.1 = n → q.2.initialized = false) ∧
    (∀ (m : Mode) (p : Plugin) (cs : List Call),
        p.initialized = false → (∀ raw ret, Call.piInit raw ret ∉ cs) →
        countTransform (run m p cs).2 = 0) ∧
    (∀ (m : Mode) (p : Plugin) (s : List Call) (e : Bool),
        p.initialized = false → p.update_only_mode = false →
        (∀ raw ret, Call.piInit raw ret ∉ s) →
        (∀ n, Call.addIncoming n ∉ s) →
        (∀ q ∈ p.interfaces, q.2.completed = true ∨ closedIn s q.1 = true) →
        (run m p (s ++ [.piClose e])).2
            = (run m p s).2 ++ [.userCloseCallback, .closeAllOutputs] ∧
        countTransform (run m p (s ++ [.piClose e])).2 = 0) := by
  refine ⟨?_, run_uninit_no_transform, ?_⟩
  · intro p n sc
    refine ⟨rfl, rfl, rfl, ?_⟩
    intro q hq hq1
    simp only [wrap_ii_init, Bool.not_false, if_true, setIface,
      List.map_map] at hq
    rcases List.mem_map.mp hq with ⟨y, hy, rfl⟩
    by_cases hyn : y.1 = n
    · simp [hyn]
    · simp only [Function.comp, hyn, if_false] at hq1 ⊢
  · intro m p s e hinit hdry hpi hadd hcov
    have hall : all_inputs_completed (run m p s).1 = true := by
      rw [all_inputs_completed_eq_proj, run_completed_map m p s hdry hadd,
        List.all_eq_true]
      intro y hy
      rcases List.mem_map.mp hy with ⟨x, hx, rfl⟩
      rcases hcov x hx with h | h <;> simp [h]
    have hstep : step m (run m p s).1 (.piClose e)
        = ((run m p s).1, [.userCloseCallback, .closeAllOutputs]) := by
      simp [step, wrap_pi_close, hall]
    constructor
    · rw [run_append]
      simp [run, hstep]
    · rw [run_append]
      simp only [countTransform_append]
      rw [run_uninit_no_transform m p s hinit hpi]
      simp [run, hstep, countTransform, isTransform]

/-- Witness for `c7_init_failure_isolation`: a failing init hook clears the
node flag, and a later close-all sequence still closes outputs. -/
theorem c7_init_failure_isolation_witness :
    (wrap_ii_init { initialized := true, interfaces := [("A", {})] }
        "A" 0 false).1.initialized = false ∧
    (run .batch { interfaces := [("A", {})], output_anchors := ["Output"] }
        ([.close "A"] ++ [.piClose false])).2
      = (run .batch { interfaces := [("A", {})], output_anchors := ["Output"] }
          [.close "A"]).2 ++ [.userCloseCallback, .closeAllOutputs] := by
  refine ⟨(c7_init_failure_isolation.1
    { initialized := true, interfaces := [("A", {})] } "A" 0).1, ?_⟩
  refine (c7_init_failure_isolation.2.2 .batch
    { interfaces := [("A", {})], output_anchors := ["Output"] }
    [.close "A"] false rfl rfl ?_ ?_ ?_).1
  · intro raw ret h
    simp at h
  · intro n h
    simp at h
  · intro q hq
    right
    simp at hq
    subst hq
    rfl

theorem find?_key_map_update (l : List (String × Iface)) (n m : String)
    (f : Iface → Iface) :
    (l.map (fun q => if q.1 = n then (q.1, f q.2) else q)).find?
        (fun q => q.1 = m)
      = if m = n then
          (l.find? (fun q => q.1 = n)).map (fun q => (q.1, f q.2))
        else l.find? (fun q => q.1 = m) := by
  induction l with
  | nil => simp
  | cons x l ih =>
      by_cases hxn : x.1 = n
      · by_cases hmn : m = n
        · subst hmn
          simp [List.find?_cons, hxn]
        · have hxm : ¬(x.1 = m) := fun h => hmn (h.symm.trans hxn)
          have hnm : ¬(n = m) := fun h => hmn h.symm
          simp [List.find?_cons, hxn, hxm, hmn, hnm, ih]
      · by_cases hxm : x.1 = m
        · have hmn : ¬(m = n) := fun h => hxn (hxm.trans h)
          simp [List.find?_cons, hxn, hxm, hmn]
        · simp [List.find?_cons, hxn, hxm, ih]

theorem getIface_setIface (p : Plugin) (n m : String) (f : Iface → Iface) :
    getIface (setIface p n f) m
      = if m = n then (getIface p n).map f else getIface p m := by
  unfold getIface setIface
  simp only [find?_key_map_update]
  by_cases hmn : m = n <;> simp [hmn, Option.map_map]
  rcases p.interfaces.find? (fun q => q.1 = n) with _ | y <;> rfl

/-- Is the named interface marked initialized (false when unregistered)? -/
def initializedFlag (p : Plugin) (n : String) : Bool :=
  ((getIface p n).map Iface.initialized).getD false

theorem all_required_eq_flags (p : Plugin) :
    all_required_inputs_initialized p
      = p.required_input_names.all (fun n => initializedFlag p n) := rfl

theorem ifaceNames_setIface (p : Plugin) (n : String) (f : Iface → Iface) :
    ifaceNames (setIface p n f) = ifaceNames p := by
  unfold ifaceNames setIface
  simp only [List.map_map]
  apply List.map_congr_left
  intro x _
  by_cases hxn : x.1 = n <;> simp [hxn]

theorem initializedFlag_setIface (p : Plugin) (n m : String)
    (g : Iface → Iface) (hg : ∀ x, (g x).initialized = true)
    (hn : n ∈ ifaceNames p) :
    initializedFlag (setIface p n g) m
      = if m = n then true else initializedFlag p m := by
  unfold initializedFlag
  rw [getIface_setIface]
  by_cases hmn : m = n
  · simp only [hmn, if_true]
    rcases hfind : getIface p n with _ | y
    · exfalso
      rcases List.mem_map.mp hn with ⟨x, hx, hx1⟩
      unfold getIface at hfind
      rcases hnone : p.interfaces.find? (fun q => q.1 = n) with _ | z
      · rw [List.find?_eq_none] at hnone
        exact hnone x hx (by simp [hx1])
      · rw [hnone] at hfind
        simp at hfind
    · simp [hg]
  · simp [hmn]

/-- In update-only mode, metadata hooks can come only from `ii_init`. -/
theorem step_dry_no_hook (m : Mode) (p : Plugin) (c : Call)
    (hdry : p.update_only_mode = true)
    (hii : ∀ n sc h, c ≠ .iiInit n sc h) :
    countMetadataHook (step m p c).2 = 0 := by
  cases c with
  | piInit raw ret =>
      cases raw <;> simp [step, wrap_pi_init, countMetadataHook]
  | addIncoming n => rfl
  | iiInit n sc h => exact absurd rfl (hii n sc h)
  | push n r => simp [step, wrap_ii_push_record, hdry, countMetadataHook]
  | close n => simp [step, wrap_ii_close, hdry, countMetadataHook]
  | pushAll lim => simp [step, wrap_push_all_records, hdry, countMetadataHook]
  | piClose e =>
      simp only [step, wrap_pi_close]
      split <;> simp [countMetadataHook]

theorem run_dry_no_hook (m : Mode) (p : Plugin) (cs : List Call)
    (hdry : p.update_only_mode = true)
    (hii : ∀ n sc h, Call.iiInit n sc h ∉ cs) :
    countMetadataHook (run m p cs).2 = 0 := by
  induction cs generalizing p with
  | nil => rfl
  | cons c cs ih =>
      simp only [run, countMetadataHook_append]
      rw [step_dry_no_hook m p c hdry
          (fun n sc h hc => hii n sc h (hc ▸ List.mem_cons_self c cs)),
        ih (step m p c).1 ((step_scalars m p c).1.trans hdry)
          (fun n sc h hm => hii n sc h (List.mem_cons_of_mem c hm))]

/-- In update-only mode, every entry point other than `pi_init`,
registration and `ii_init` leaves the node state untouched. -/
theorem step_dry_state_id (m : Mode) (p : Plugin) (c : Call)
    (hdry : p.update_only_mode = true)
    (hii : ∀ n sc h, c ≠ .iiInit n sc h)
    (hpi : ∀ raw ret, c ≠ .piInit raw ret)
    (hadd : ∀ n, c ≠ .addIncoming n) :
    (step m p c).1 = p := by
  cases c with
  | piInit raw ret => exact absurd rfl (hpi raw ret)
  | addIncoming n => exact absurd rfl (hadd n)
  | iiInit n sc h => exact absurd rfl (hii n sc h)
  | push n r => simp [step, wrap_ii_push_record, hdry]
  | close n => simp [step, wrap_ii_close, hdry]
  | pushAll lim => simp [step, wrap_push_all_records, hdry]
  | piClose e =>
      simp only [step, wrap_pi_close]
      split <;> rfl

/-- In update-only mode a successful `ii_init` marks the interface and fires
the metadata hook exactly when all required inputs are now initialized. -/
theorem wrap_ii_init_dry_true (p : Plugin) (n : String) (sc : Nat)
    (hdry : p.update_only_mode = true) :
    (wrap_ii_init p n sc true).1
        = setIface p n (fun f =>
            { f with record_info_in := some sc, initialized := true }) ∧
    countMetadataHook (wrap_ii_init p n sc true).2.1
      = if all_required_inputs_initialized
            (setIface p n (fun f =>
              { f with record_info_in := some sc, initialized := true }))
        then 1 else 0 := by
  unfold wrap_ii_init
  simp only [Bool.not_true, Bool.false_eq_true, if_false]
  constructor
  · split <;> rfl
  · by_cases hall : all_required_inputs_initialized
        (setIface p n (fun f =>
          { f with record_info_in := some sc, initialized := true })) = true
    · simp [hall, hdry, countMetadataHook, List.count_cons, List.count_eq_zero,
        List.mem_map]
    · simp only [Bool.not_eq_true] at hall
      simp [hall, hdry, countMetadataHook]

theorem mem_iiInitNames (cs : List Call) (n : String) (sc : Nat) (h : Bool)
    (hmem : Call.iiInit n sc h ∈ cs) : n ∈ iiInitNames cs :=
  List.mem_filterMap.mpr ⟨.iiInit n sc h, hmem, rfl⟩

theorem eq_nil_of_count_zero (l : List String)
    (h : ∀ a, l.count a = 0) : l = [] :=
  List.eq_nil_iff_forall_not_mem.mpr fun a ha =>
    (List.count_eq_zero.mp (h a)) ha

theorem iiInitNames_cons_other (c : Call) (cs : List Call)
    (hii : ∀ n sc h, c ≠ .iiInit n sc h) :
    iiInitNames (c :: cs) = iiInitNames cs := by
  cases c with
  | iiInit n sc h => exact absurd rfl (hii n sc h)
  | piInit raw ret => rfl
  | addIncoming n => rfl
  | push n r => rfl
  | close n => rfl
  | pushAll lim => rfl
  | piClose e => rfl

theorem iiInitNames_cons_init (n : String) (sc : Nat) (h : Bool)
    (cs : List Call) :
    iiInitNames (.iiInit n sc h :: cs) = n :: iiInitNames cs := rfl

/-- In a dry run whose `ii_init` calls hit each not-yet-initialized required
input exactly once (and nothing else), the user metadata hook fires exactly
once. -/
theorem run_dry_metadata_once (m : Mode) (cs : List Call) (p : Plugin)
    (hdry : p.update_only_mode = true)
    (hreg : ∀ n ∈ p.required_input_names, n ∈ ifaceNames p)
    (hpi : ∀ raw ret, Call.piInit raw ret ∉ cs)
    (hadd : ∀ n, Call.addIncoming n ∉ cs)
    (htrue : ∀ n sc h, Call.iiInit n sc h ∈ cs → h = true)
    (hcount : ∀ n : String,
        (iiInitNames cs).count n
          = if n ∈ p.required_input_names ∧ initializedFlag p n = false
            then 1 else 0)
    (hsome : ∃ n ∈ p.required_input_names, initializedFlag p n = false) :
    countMetadataHook (run m p cs).2 = 1 := by
  induction cs generalizing p with
  | nil =>
      rcases hsome with ⟨n, hn, hf⟩
      have hc := hcount n
      simp [iiInitNames, hn, hf] at hc
  | cons c cs ih =>
      by_cases hcii : ∀ n sc h, c ≠ Call.iiInit n sc h
      · have hstate := step_dry_state_id m p c hdry hcii
          (fun raw ret hc => hpi raw ret (hc ▸ List.mem_cons_self c cs))
          (fun n hc => hadd n (hc ▸ List.mem_cons_self c cs))
        have hhook := step_dry_no_hook m p c hdry hcii
        have hnames := iiInitNames_cons_other c cs hcii
        simp only [run, countMetadataHook_append]
        rw [hhook, hstate, Nat.zero_add]
        exact ih p hdry hreg
          (fun raw ret hm => hpi raw ret (List.mem_cons_of_mem c hm))
          (fun n hm => hadd n (List.mem_cons_of_mem c hm))
          (fun n sc h hm => htrue n sc h (List.mem_cons_of_mem c hm))
          (fun n => (hnames ▸ hcount n)) hsome
      · push_neg at hcii
        obtain ⟨n, sc, h, rfl⟩ := hcii
        have hh := htrue n sc h (List.mem_cons_self _ _)
        subst hh
        have hcn := hcount n
        rw [iiInitNames_cons_init, List.count_cons_self] at hcn
        have hreqn : n ∈ p.required_input_names ∧
            initializedFlag p n = false := by
          by_contra hcon
          simp [hcon] at hcn
        have htail0 : (iiInitNames cs).count n = 0 := by
          rw [if_pos hreqn] at hcn
          omega
        have hw := wrap_ii_init_dry_true p n sc hdry
        have hflag : ∀ k, initializedFlag
            (setIface p n (fun f =>
              { f with record_info_in := some sc, initialized := true })) k
            = if k = n then true else initializedFlag p k :=
          fun k => initializedFlag_setIface p n k _ (fun x => rfl)
            (hreg n hreqn.1)
        have hstate : (step m p (.iiInit n sc true)).1
            = setIface p n (fun f =>
                { f with record_info_in := some sc, initialized := true }) := by
          simpa [step] using hw.1
        have hhook : countMetadataHook (step m p (.iiInit n sc true)).2
            = if all_required_inputs_initialized
                  (setIface p n (fun f =>
                    { f with record_info_in := some sc, initialized := true }))
              then 1 else 0 := by
          simpa [step] using hw.2
        simp only [run, countMetadataHook_append]
        rw [hstate, hhook]
        by_cases hall : all_required_inputs_initialized
            (setIface p n (fun f =>
              { f with record_info_in := some sc, initialized := true })) = true
        · rw [if_pos hall]
          have hzero : ∀ k, (iiInitNames cs).count k = 0 := by
            intro k
            by_cases hkn : k = n
            · subst hkn
              exact htail0
            · have hck := hcount k
              rw [iiInitNames_cons_init] at hck
              simp [List.count_cons, Ne.symm hkn] at hck
              rw [hck]
              by_cases hkreq : k ∈ p.required_input_names
              · have hflagk : initializedFlag p k = true := by
                  rw [all_required_eq_flags, List.all_eq_true] at hall
                  have := hall k hkreq
                  rw [hflag k, if_neg hkn] at this
                  simpa using this
                simp [hflagk]
              · simp [hkreq]
          have hnoii : ∀ k sc2 h2, Call.iiInit k sc2 h2 ∉ cs := by
            intro k sc2 h2 hm
            have hmem := mem_iiInitNames cs k sc2 h2 hm
            rw [eq_nil_of_count_zero _ hzero] at hmem
            simp at hmem
          rw [run_dry_no_hook m _ cs (by simp [hdry]) hnoii]
        · rw [if_neg hall, Nat.zero_add]
          apply ih
          · simp [hdry]
          · intro k hk
            rw [ifaceNames_setIface]
            exact hreg k (by simpa using hk)
          · exact fun raw ret hm => hpi raw ret (List.mem_cons_of_mem _ hm)
          · exact fun k hm => hadd k (List.mem_cons_of_mem _ hm)
          · exact fun k sc2 h2 hm => htrue k sc2 h2 (List.mem_cons_of_mem _ hm)
          · intro k
            by_cases hkn : k = n
            · subst hkn
              rw [htail0, hflag k, if_pos rfl]
              simp
            · have hck := hcount k
              rw [iiInitNames_cons_init] at hck
              simp [List.count_cons, Ne.symm hkn] at hck
              rw [hck, hflag k, if_neg hkn]
              simp
          · rw [all_required_eq_flags] at hall
            rcases List.all_eq_false.mp (Bool.not_eq_true _ |>.mp hall)
              with ⟨k, hk, hkf⟩
            refine ⟨k, by simpa using hk, ?_⟩
            simpa using hkf

/-- Claim C6, as frozen, is false: in dry-run mode the user metadata hook
does NOT fire exactly once per run.  With required input A and an optional
input B, the init of B arrives after all required inputs have negotiated, so
`ii_init` fires the hook a second time. -/
theorem c6_dry_metadata_counterexample :
    countMetadataHook
      (run .batch
        { update_only_mode := true, required_input_names := ["A"],
          output_anchors := ["Output"],
          interfaces := [("A", {}), ("B", {})] }
        [.iiInit "A" 0 true, .iiInit "B" 0 true]).2 = 2 := by
  rfl

/-- Claim C6 (amended): in dry-run mode no entry point ever invokes the user
transformation (in particular neither `pushRecord` nor `pushAllRecords`); a
successful interface init after which all required inputs are initialized
fires the metadata hook and then pushes the computed schema to every output
anchor; and the hook fires exactly once per run for runs whose interface
inits are exactly one successful init per required input — an init arriving
after all required inputs are already initialized would fire it again. -/
theorem c6_dry_run_behavior :
    (∀ (m : Mode) (p : Plugin) (cs : List Call),
        p.update_only_mode = true → countTransform (run m p cs).2 = 0) ∧
    (∀ (p : Plugin) (n : String) (sc : Nat),
        p.update_only_mode = true →
        all_required_inputs_initialized
          (setIface p n (fun f =>
            { f with record_info_in := some sc, initialized := true })) = true →
        wrap_ii_init p n sc true
          = (setIface p n (fun f =>
              { f with record_info_in := some sc, initialized := true }),
             .metadataHook :: p.output_anchors.map Event.pushMeta, true)) ∧
    (∀ (m : Mode) (cs : List Call) (p : Plugin),
        p.update_only_mode = true →
        (∀ n ∈ p.required_input_names, n ∈ ifaceNames p) →
        (∀ raw ret, Call.piInit raw ret ∉ cs) →
        (∀ n, Call.addIncoming n ∉ cs) →
        (∀ n sc h, Call.iiInit n sc h ∈ cs → h = true) →
        (∀ n : String,
            (iiInitNames cs).count n
              = if n ∈ p.required_input_names ∧ initializedFlag p n = false
                then 1 else 0) →
        (∃ n ∈ p.required_input_names, initializedFlag p n = false) →
        countMetadataHook (run m p cs).2 = 1) := by
  refine ⟨run_dry_no_transform, ?_, run_dry_metadata_once⟩
  intro p n sc hdry hall
  unfold wrap_ii_init
  simp [hdry, hall]

/-- Witness for `c6_dry_run_behavior`: two required inputs, each initialized
once in a dry run; the metadata hook fires exactly once. -/
theorem c6_dry_run_behavior_witness :
    countMetadataHook
      (run .batch
        { update_only_mode := true, required_input_names := ["A", "B"],
          output_anchors := ["Output"],
          interfaces := [("A", {}), ("B", {})] }
        [.iiInit "A" 0 true, .iiInit "B" 1 true]).2 = 1 := by
  apply c6_dry_run_behavior.2.2 .batch
    [.iiInit "A" 0 true, .iiInit "B" 1 true]
    { update_only_mode := true, required_input_names := ["A", "B"],
      output_anchors := ["Output"], interfaces := [("A", {}), ("B", {})] }
  · rfl
  · intro n hn
    simp at hn
    rcases hn with rfl | rfl <;> simp [ifaceNames]
  · intro raw ret hm
    simp at hm
  · intro n hm
    simp at hm
  · intro n sc h hm
    simp at hm
    exact hm.elim (fun x => x.2.2) (fun x => x.2.2)
  · intro k
    by_cases hA : k = "A"
    · subst hA
      decide
    · by_cases hB : k = "B"
      · subst hB
        decide
      · simp [iiInitNames, List.count_cons, Ne.symm hA, Ne.symm hB, hA, hB]
  · exact ⟨"A", by simp, by decide⟩

/-- The cumulative effect of a batch-mode flow sequence on one interface:
its buffer accumulates the records pushed to it, and it is completed once
closed. -/
def flowIface (s : List Call) (k : String) (f : Iface) : Iface :=
  { f with completed := f.completed || closedIn s k,
           buffer := f.buffer ++ pushesTo s k }

theorem step_batch_push_state (p : Plugin) (n : String) (r : Rec)
    (hinit : p.initialized = true) (hdry : p.update_only_mode = false) :
    (step .batch p (.push n r)).1 = accumulate_record p n r := by
  simp [step, push_strategy, wrap_ii_push_record, hinit, hdry,
    batch_push_strategy]

theorem step_batch_close_state (p : Plugin) (n : String)
    (hdry : p.update_only_mode = false) :
    (step .batch p (.close n)).1
      = setIface p n (fun f => { f with completed := true }) := by
  simp [step, wrap_ii_close, hdry, close_inner_state]

/-- In batch mode, outside dry-run, on an initialized node, a record-flow
sequence transforms every registry entry pointwise by `flowIface` and leaves
the rest of the node alone. -/
theorem run_batch_flow_state (s : List Call) (p : Plugin)
    (hinit : p.initialized = true) (hdry : p.update_only_mode = false)
    (hflow : ∀ c ∈ s, isFlow c = true) :
    (run .batch p s).1
      = { p with interfaces :=
            p.interfaces.map (fun q => (q.1, flowIface s q.1 q.2)) } := by
  induction s generalizing p with
  | nil =>
      have h : p.interfaces.map (fun q => (q.1, flowIface [] q.1 q.2))
          = p.interfaces := by
        have hq : ∀ q ∈ p.interfaces, (q.1, flowIface [] q.1 q.2) = q := by
          intro q _
          obtain ⟨k, f⟩ := q
          simp [flowIface, closedIn, pushesTo]
        rw [List.map_congr_left hq]
        simp
      rw [show (run .batch p []).1 = p from rfl, h]
  | cons c s ih =>
      have hc := hflow c (List.mem_cons_self c s)
      have hs : ∀ x ∈ s, isFlow x = true :=
        fun x hx => hflow x (List.mem_cons_of_mem c hx)
      have hrun : (run .batch p (c :: s)).1
          = (run .batch (step .batch p c).1 s).1 := by
        simp [run]
      cases c with
      | push n r =>
          rw [hrun, step_batch_push_state p n r hinit hdry,
            ih (accumulate_record p n r) (by simp [hinit]) (by simp [hdry]) hs]
          unfold accumulate_record setIface
          simp only [List.map_map]
          congr 1
          apply List.map_congr_left
          intro x _
          obtain ⟨k, f⟩ := x
          by_cases hk : k = n
          · subst hk
            simp [flowIface, closedIn, pushesTo]
          · simp [flowIface, closedIn, pushesTo, hk, Ne.symm hk]
      | close n =>
          rw [hrun, step_batch_close_state p n hdry,
            ih (setIface p n (fun f => { f with completed := true }))
              (by simp [hinit]) (by simp [hdry]) hs]
          unfold setIface
          simp only [List.map_map]
          congr 1
          apply List.map_congr_left
          intro x _
          obtain ⟨k, f⟩ := x
          by_cases hk : k = n
          · subst hk
            simp [flowIface, closedIn, pushesTo]
          · simp [flowIface, closedIn, pushesTo, hk, Ne.symm hk]
      | piInit raw ret => simp [isFlow] at hc
      | addIncoming n => simp [isFlow] at hc
      | iiInit n sc h => simp [isFlow] at hc
      | pushAll lim => simp [isFlow] at hc
      | piClose e => simp [isFlow] at hc

theorem mem_setIface_of_mem (p : Plugin) (n : String) (f : Iface → Iface)
    (k : String) (g : Iface) (h : (k, g) ∈ p.interfaces) :
    (k, if k = n then f g else g) ∈ (setIface p n f).interfaces := by
  unfold setIface
  refine List.mem_map.mpr ⟨(k, g), h, ?_⟩
  by_cases hk : k = n <;> simp [hk]

/-- In batch mode, outside dry-run, while some registered interface has not
been closed, no user transformation fires. -/
theorem run_batch_no_transform_while_open (s : List Call) (p : Plugin)
    (j : String) (fj : Iface)
    (hdry : p.update_only_mode = false)
    (hflow : ∀ c ∈ s, isFlow c = true)
    (hj : (j, fj) ∈ p.interfaces) (hjc : fj.completed = false)
    (hnc : Call.close j ∉ s) :
    countTransform (run .batch p s).2 = 0 := by
  induction s generalizing p fj with
  | nil => rfl
  | cons c s ih =>
      have hc := hflow c (List.mem_cons_self c s)
      have hs : ∀ x ∈ s, isFlow x = true :=
        fun x hx => hflow x (List.mem_cons_of_mem c hx)
      have hnc1 : Call.close j ∉ s := fun hm => hnc (List.mem_cons_of_mem c hm)
      simp only [run, countTransform_append]
      cases c with
      | push n r =>
          by_cases hg : (!p.initialized || p.update_only_mode) = true
          · have hst : step .batch p (.push n r) = (p, []) := by
              simp [step, push_strategy, wrap_ii_push_record, hg]
            rw [hst]
            simpa [countTransform] using ih p fj hdry hs hj hjc hnc1
          · have hst : step .batch p (.push n r)
                = (accumulate_record p n r, []) := by
              simp [step, push_strategy, wrap_ii_push_record, hg,
                batch_push_strategy]
            rw [hst]
            have hmem := mem_setIface_of_mem p n
              (fun f => { f with buffer := f.buffer ++ [r] }) j fj hj
            simp only [countTransform]
            rw [List.filter_nil, List.length_nil, Nat.zero_add]
            refine ih (accumulate_record p n r)
              (if j = n then { fj with buffer := fj.buffer ++ [r] } else fj)
              (by simp [hdry]) hs hmem ?_ hnc1
            by_cases hk : j = n <;> simp [hk, hjc]
      | close n =>
          have hnj : ¬(n = j) := fun h =>
            hnc (by rw [h] at *; exact List.mem_cons_self _ _)
          have hjn : ¬(j = n) := fun h => hnj h.symm
          have hmem : (j, fj) ∈ (setIface p n
              (fun f => { f with completed := true })).interfaces := by
            have := mem_setIface_of_mem p n
              (fun f => { f with completed := true }) j fj hj
            rw [if_neg hjn] at this
            exact this
          have hall : all_inputs_completed (setIface p n
              (fun f => { f with completed := true })) = false :=
            all_inputs_completed_false_of_uncompleted _ ⟨(j, fj), hmem, hjc⟩
          have hev : countTransform (step .batch p (.close n)).2 = 0 := by
            by_cases hi : p.initialized = true <;>
              simp [step, wrap_ii_close, hdry, close_inner, batch_ii_close,
                hall, hi, countTransform]
          rw [hev, step_batch_close_state p n hdry, Nat.zero_add]
          exact ih (setIface p n (fun f => { f with completed := true }))
            fj (by simp [hdry]) hs hmem hjc hnc1
      | piInit raw ret => simp [isFlow] at hc
      | addIncoming n => simp [isFlow] at hc
      | iiInit n sc h => simp [isFlow] at hc
      | pushAll lim => simp [isFlow] at hc
      | piClose e => simp [isFlow] at hc

theorem buffersOf_setIface_completed (p : Plugin) (n : String) :
    buffersOf (setIface p n (fun f => { f with completed := true }))
      = buffersOf p := by
  unfold buffersOf setIface
  simp only [List.map_map]
  apply List.map_congr_left
  intro x _
  by_cases hk : x.1 = n <;> simp [hk]

/-- At the triggering close, batch mode emits: metadata negotiation, the
user transformation on the node-wide buffers, a metadata push per output
anchor, and the output flush, in that order. -/
theorem step_batch_close_fire (p : Plugin) (j : String)
    (hinit : p.initialized = true) (hdry : p.update_only_mode = false)
    (hall : all_inputs_completed
        (setIface p j (fun f => { f with completed := true })) = true) :
    step .batch p (.close j)
      = (setIface p j (fun f => { f with completed := true }),
         .metadataHook :: .userTransform (buffersOf p) ::
           (p.output_anchors.map Event.pushMeta ++ [.flushOutputs])) := by
  simp [step, wrap_ii_close, hdry, close_inner, batch_ii_close, hinit, hall,
    buildMetadataClosure, buffersOf_setIface_completed]

theorem countTransform_cons (e : Event) (xs : List Event) :
    countTransform (e :: xs)
      = (if isTransform e = true then 1 else 0) + countTransform xs := by
  unfold countTransform
  rw [List.filter_cons]
  split <;> simp [Nat.add_comm]

theorem countTransform_fire_list (b : List (String × List Rec))
    (l : List String) :
    countTransform (.metadataHook :: .userTransform b ::
      (l.map Event.pushMeta ++ [.flushOutputs])) = 1 := by
  rw [countTransform_cons, countTransform_cons, countTransform_append,
    countTransform_pushMeta_map]
  simp [isTransform, countTransform]

/-- Claim C4: in batch mode, for every non-dry run on an initialized node in
which every registered interface is closed exactly once, the user
transformation fires exactly once, at the interface close that makes
`allInputsCompleted` true; the triggering close emits metadata negotiation,
the transformation on the full accumulated buffers of all interfaces (each
interface's initial buffer extended by every record pushed to it during the
run), the per-anchor metadata pushes and the output flush, in that order;
and on a node that was never fully initialized a close marks the interface
completed while emitting nothing. -/
theorem c4_batch_fires_once (p : Plugin) (s : List Call) (j : String)
    (fj : Iface)
    (hinit : p.initialized = true) (hdry : p.update_only_mode = false)
    (hflow : ∀ c ∈ s, isFlow c = true)
    (hj : (j, fj) ∈ p.interfaces) (hjc : fj.completed = false)
    (hnc : Call.close j ∉ s)
    (hcov : ∀ q ∈ p.interfaces, q.1 ≠ j →
        q.2.completed = true ∨ closedIn s q.1 = true) :
    countTransform (run .batch p (s ++ [.close j])).2 = 1 ∧
    (run .batch p (s ++ [.close j])).2
      = (run .batch p s).2
        ++ .metadataHook :: .userTransform (buffersOf (run .batch p s).1) ::
            (p.output_anchors.map Event.pushMeta ++ [.flushOutputs]) ∧
    buffersOf (run .batch p s).1
      = p.interfaces.map (fun q => (q.1, q.2.buffer ++ pushesTo s q.1)) ∧
    (∀ (p2 : Plugin) (k : String), p2.initialized = false →
        p2.update_only_mode = false →
        step .batch p2 (.close k)
          = (setIface p2 k (fun f => { f with completed := true }), [])) := by
  have hQ := run_batch_flow_state s p hinit hdry hflow
  have hQinit : (run .batch p s).1.initialized = true := by
    rw [hQ]
    exact hinit
  have hQdry : (run .batch p s).1.update_only_mode = false := by
    rw [hQ]
    exact hdry
  have hQanch : (run .batch p s).1.output_anchors = p.output_anchors := by
    rw [hQ]
  have hallQ : all_inputs_completed (setIface (run .batch p s).1 j
      (fun f => { f with completed := true })) = true := by
    rw [hQ]
    unfold all_inputs_completed setIface
    simp only [List.map_map, List.all_eq_true]
    intro x hx
    rcases List.mem_map.mp hx with ⟨y, hy, rfl⟩
    by_cases hyj : y.1 = j
    · simp [Function.comp, hyj]
    · rcases hcov y hy hyj with h | h <;>
        simp [Function.comp, hyj, flowIface, h]
  have hfire := step_batch_close_fire (run .batch p s).1 j hQinit hQdry hallQ
  have hsplit : (run .batch p (s ++ [.close j])).2
      = (run .batch p s).2
        ++ .metadataHook :: .userTransform (buffersOf (run .batch p s).1) ::
            (p.output_anchors.map Event.pushMeta ++ [.flushOutputs]) := by
    rw [run_append]
    simp [run, hfire, hQanch]
  refine ⟨?_, hsplit, ?_, ?_⟩
  · rw [hsplit, countTransform_append,
      run_batch_no_transform_while_open s p j fj hdry hflow hj hjc hnc,
      countTransform_fire_list, Nat.zero_add]
  · rw [hQ]
    unfold buffersOf
    simp only [List.map_map]
    apply List.map_congr_left
    intro x _
    simp [flowIface]
  · intro p2 k h1 h2
    simp [step, wrap_ii_close, h2, close_inner, batch_ii_close, h1]

/-- Witness for `c4_batch_fires_once`: interfaces A (records 1,2) and B
(record 3); A closes first, the transformation fires exactly once at B's
close. -/
theorem c4_batch_fires_once_witness :
    countTransform
      (run .batch
        { initialized := true, output_anchors := ["Output"],
          interfaces := [("A", {}), ("B", {})] }
        ([.push "A" 1, .push "A" 2, .push "B" 3, .close "A"]
          ++ [.close "B"])).2 = 1 ∧
    buffersOf
      (run .batch
        { initialized := true, output_anchors := ["Output"],
          interfaces := [("A", {}), ("B", {})] }
        [.push "A" 1, .push "A" 2, .push "B" 3, .close "A"]).1
      = [("A", [1, 2]), ("B", [3])] := by
  have h := c4_batch_fires_once
    { initialized := true, output_anchors := ["Output"],
      interfaces := [("A", {}), ("B", {})] }
    [.push "A" 1, .push "A" 2, .push "B" 3, .close "A"] "B" {}
    rfl rfl (by decide) (by decide) rfl (by decide) (by decide)
  exact ⟨h.1, by rw [h.2.2.1]; rfl⟩

end Snakeplane
